import Mathlib

/-! # curve25519: anonymous encryption and point utilities

A shallow embedding of `curve25519.go`.

* Byte slices are lists of naturals (one element per byte); a slice's capacity
  is taken equal to its length.  A `nil` result is `none`, a non-nil slice
  `some l` (so the empty non-nil slice is `some []`).
* Fixed-size Go arrays `[n]byte` are lists carrying their length.
* A run-time panic (slice bounds, index out of range) is `Except.error`.
* The imported packages (`edwards25519`, `sha512`, `sha3`, `pbkdf2`, `ed25519`)
  are not part of this file's source; they are parameters (`Edwards`, `Lib`),
  and what is assumed of them is stated as explicit contracts.
* The draw of `ed25519.GenerateKey(rand.Reader)` is an explicit argument of
  `Encrypt`.
-/

namespace Curve25519

/-- A byte slice `[]byte`, by its contents. -/
abbrev Bytes := List Nat

/-- A Go array `[n]byte`. -/
abbrev ByteArr (n : Nat) := {l : List Nat // l.length = n}

/-- The run-time panics the code can raise. -/
inductive Panic where
  | sliceBounds
  | indexRange
  deriving DecidableEq, Repr

/-- Slice expression `s[:hi]`. -/
def sliceTo (s : Bytes) (hi : Nat) : Except Panic Bytes :=
  if hi ≤ s.length then .ok (s.take hi) else .error .sliceBounds

/-- Slice expression `s[lo:hi]`. -/
def sliceRange (s : Bytes) (lo hi : Nat) : Except Panic Bytes :=
  if lo ≤ hi ∧ hi ≤ s.length then .ok ((s.take hi).drop lo) else .error .sliceBounds

/-- The standard library `bytes.Compare`: lexicographic order, as -1, 0 or 1. -/
def bytesCompare : Bytes → Bytes → Int
  | [], [] => 0
  | [], _ :: _ => -1
  | _ :: _, [] => 1
  | a :: as, b :: bs =>
    if a < b then -1 else if b < a then 1 else bytesCompare as bs

/-- The interface `hash.Hash`, as far as `GenHash` uses it: an object with a
state, `Reset`, `Write` and `Sum`. -/
structure Hash where
  State : Type
  fresh : State
  Reset : State → State
  Write : State → Bytes → State
  Sum : State → Bytes → Bytes

/-- The package `edwards25519`, as far as the code uses it.  `FromBytes`
returns `none` where the Go method returns `false`. -/
structure Edwards where
  ExtendedGroupElement : Type
  CachedGroupElement : Type
  CompletedGroupElement : Type
  FromBytes : ByteArr 32 → Option ExtendedGroupElement
  IsOnCurve : ExtendedGroupElement → Bool
  ToBytes : ExtendedGroupElement → ByteArr 32
  ToCached : ExtendedGroupElement → CachedGroupElement
  ToExtended : CompletedGroupElement → ExtendedGroupElement
  GeAdd : ExtendedGroupElement → CachedGroupElement → CompletedGroupElement
  GeSub : ExtendedGroupElement → CachedGroupElement → CompletedGroupElement
  ScalarMult : ExtendedGroupElement → ByteArr 32 → ExtendedGroupElement
  GeScalarMultBase : ByteArr 32 → ExtendedGroupElement

/-- The imported packages: the group library, `sha512.Sum512`, the object
`sha3.New256()`, `pbkdf2.Key(·, ·, ·, ·, sha3.New256)` (its key length is a Go
`int`), `ed25519.Sign` and `ed25519.Verify`. -/
structure Lib where
  ed : Edwards
  Sum512 : Bytes → ByteArr 64
  New256 : Hash
  pbkdf2Key : Bytes → Bytes → Int → Int → Except Panic Bytes
  edSign : Bytes → Bytes → Bytes
  edVerify : Bytes → Bytes → Bytes → Bool

/-- `GenHash`: reset the hash object, write the data, return the digest. -/
def GenHash (h : Hash) (data : Bytes) : Bytes :=
  let s := h.Reset h.fresh
  let s := h.Write s data
  h.Sum s []

/-- `fromSlice`: copy a slice into a zeroed `[32]byte`. -/
def fromSlice (x : Bytes) : ByteArr 32 :=
  ⟨x.take 32 ++ List.replicate (32 - x.length) 0, by
    simp only [List.length_append, List.length_take, List.length_replicate]; omega⟩

/-- `Sign`. -/
def Sign (P : Lib) (priv m : Bytes) : Option Bytes :=
  if priv.length ≠ 64 then none
  else some (P.edSign priv m)

/-- `Verify`. -/
def Verify (P : Lib) (pub m s : Bytes) : Bool :=
  if pub.length ≠ 32 then false
  else P.edVerify pub m s

/-- `Add`. -/
def Add (E : Edwards) (x1 x2 : Bytes) : Option Bytes :=
  if x1.length ≠ 32 ∨ x2.length ≠ 32 then none
  else
    match E.FromBytes (fromSlice x1) with
    | none => none
    | some e1 =>
      if E.IsOnCurve e1 then
        match E.FromBytes (fromSlice x2) with
        | none => none
        | some e2 =>
          if E.IsOnCurve e2 then
            let c := E.ToCached e2
            let cp := E.GeAdd e1 c
            let e := E.ToExtended cp
            some (E.ToBytes e).val
          else none
      else none

/-- `Sub`. -/
def Sub (E : Edwards) (x1 x2 : Bytes) : Option Bytes :=
  if x1.length ≠ 32 ∨ x2.length ≠ 32 then none
  else
    match E.FromBytes (fromSlice x1) with
    | none => none
    | some e1 =>
      if E.IsOnCurve e1 then
        match E.FromBytes (fromSlice x2) with
        | none => none
        | some e2 =>
          if E.IsOnCurve e2 then
            let c := E.ToCached e2
            let cp := E.GeSub e1 c
            let e := E.ToExtended cp
            some (E.ToBytes e).val
          else none
      else none

/-- `ScalarMult`. -/
def ScalarMult (E : Edwards) (x1 k : Bytes) : Option Bytes :=
  if k.length ≠ 32 then none
  else if x1.length ≠ 32 then none
  else
    match E.FromBytes (fromSlice x1) with
    | none => none
    | some e1 =>
      let e := E.ScalarMult e1 (fromSlice k)
      some (E.ToBytes e).val

/-- `ScalarBaseMult`. -/
def ScalarBaseMult (E : Edwards) (k : Bytes) : Option Bytes :=
  if k.length ≠ 32 then none
  else
    let e := E.GeScalarMultBase (fromSlice k)
    some (E.ToBytes e).val

/-- `IsOnCurve`. -/
def IsOnCurve (E : Edwards) (x : Bytes) : Bool :=
  if x.length ≠ 32 then false
  else
    match E.FromBytes (fromSlice x) with
    | none => false
    | some e => E.IsOnCurve e

/-- The block both `Encrypt` and `Decrypt` run on the SHA-512 digest of a seed:
`digest[0] &= 0xF8; digest[31] &= 0x7F; digest[31] |= 0x40; digest[:32]`. -/
def clamp (digest : ByteArr 64) : Bytes :=
  let d := digest.val
  let d := d.set 0 (d.getD 0 0 &&& 0xF8)
  let d := d.set 31 (d.getD 31 0 &&& 0x7F)
  let d := d.set 31 (d.getD 31 0 ||| 0x40)
  d.take 32

/-- The loop `for i := i0; i < i0 + n; i++ { dst[dOff+i] ^= src[sOff+i] }`,
by the number `n` of iterations left. -/
def xorLoop (dOff sOff : Nat) (src : Bytes) : Nat → Nat → Bytes → Except Panic Bytes
  | 0, _, dst => .ok dst
  | n + 1, i, dst =>
    match dst[dOff + i]?, src[sOff + i]? with
    | some a, some b => xorLoop dOff sOff src n (i + 1) (dst.set (dOff + i) (a ^^^ b))
    | _, _ => .error .indexRange

/-- `Encrypt`.  `gen` is what `ed25519.GenerateKey(rand.Reader)` returns:
`none` for an error, `some (R, r)` for a key pair. -/
def Encrypt (P : Lib) (gen : Option (Bytes × Bytes)) (pub m : Bytes) :
    Except Panic (Option Bytes) :=
  if pub.length ≠ 32 then .ok none
  else
    let length : Int := m.length
    match gen with
    | none => .ok none
    | some (R, r) => do
      let seed ← sliceTo r 32
      let r := clamp (P.Sum512 seed)
      let z := ScalarMult P.ed pub r
      let c : Bytes := []
      let c := c ++ R
      let c := c ++ GenHash P.New256 (z.getD [] ++ m)
      let ks ← P.pbkdf2Key (z.getD []) R 4096 length
      let c := c ++ ks
      let c ← xorLoop 64 0 m length.toNat 0 c
      .ok (some c)

/-- `Decrypt`. -/
def Decrypt (P : Lib) (priv c : Bytes) : Except Panic (Option Bytes) := do
  let seed ← sliceTo priv 32
  let priv := clamp (P.Sum512 seed)
  let length : Int := (c.length : Int) - 64
  let R ← sliceTo c 32
  let z := ScalarMult P.ed R priv
  let m ← P.pbkdf2Key (z.getD []) R 4096 length
  let m ← xorLoop 0 64 c length.toNat 0 m
  let tag ← sliceRange c 32 64
  if bytesCompare (GenHash P.New256 (z.getD [] ++ m)) tag ≠ 0 then .ok none
  else .ok (some m)

/-- Bytewise exclusive or of two byte strings (to the shorter length). -/
def xorBytes (a b : Bytes) : Bytes := List.zipWith (· ^^^ ·) a b

/-- The keystream `pbkdf2.Key(pw, salt, 4096, n, sha3.New256)` as a byte string
(empty should the call panic). -/
def Lib.kdf (P : Lib) (pw salt : Bytes) (n : Nat) : Bytes :=
  match P.pbkdf2Key pw salt 4096 (n : Int) with
  | .ok ks => ks
  | .error _ => []

/-- The shared secret as the code uses it: `ScalarMult(point, clamp(key[:32]))`,
a `nil` result counting as the empty byte string (as `append` and `pbkdf2.Key`
treat it). -/
def secret (P : Lib) (point key : Bytes) : Bytes :=
  (ScalarMult P.ed point (clamp (P.Sum512 (key.take 32)))).getD []

/-- What the code relies on from the hash and key-derivation packages:
a SHA3-256 digest has 32 bytes, and `pbkdf2.Key` asked for `n ≥ 0` bytes
returns exactly `n` bytes. -/
structure Lib.Contract (P : Lib) : Prop where
  hash_len : ∀ d, (GenHash P.New256 d).length = 32
  kdf_len : ∀ (pw salt : Bytes) (n : Nat),
    ∃ ks, P.pbkdf2Key pw salt 4096 (n : Int) = .ok ks ∧ ks.length = n

/-- A scalar produced by the clamping block from some 64-byte digest. -/
def Clamped (k : ByteArr 32) : Prop := ∃ d : ByteArr 64, k.val = clamp d

/-- What Diffie-Hellman agreement needs from the group library, on clamped
scalars: the encoding of a base-point multiple decodes to the same point;
scalar multiplication respects the encoding; and multiplying the base point by
`a` then `b` gives the same point as by `b` then `a`. -/
structure Edwards.DHContract (E : Edwards) : Prop where
  decode_base : ∀ k, Clamped k →
    ∃ e, E.FromBytes (E.ToBytes (E.GeScalarMultBase k)) = some e ∧
      E.ToBytes e = E.ToBytes (E.GeScalarMultBase k)
  mult_congr : ∀ e e' k, Clamped k → E.ToBytes e = E.ToBytes e' →
    E.ToBytes (E.ScalarMult e k) = E.ToBytes (E.ScalarMult e' k)
  mult_comm : ∀ a b, Clamped a → Clamped b →
    E.ToBytes (E.ScalarMult (E.GeScalarMultBase a) b)
      = E.ToBytes (E.ScalarMult (E.GeScalarMultBase b) a)

/-- A key pair as the key-generation collaborator `ed25519.GenerateKey` makes
it: a 64-byte private key whose public key is the base-point multiple of the
clamped SHA-512 digest of its first 32 bytes. -/
def KeyPair (P : Lib) (pub priv : Bytes) : Prop :=
  priv.length = 64 ∧
    ScalarBaseMult P.ed (clamp (P.Sum512 (priv.take 32))) = some pub

/-- What the signature round trip needs from the signature primitive: a
signature made with a private key of the key-generation collaborator (whose
last 32 bytes are its public key) verifies under that public key. -/
def Lib.SigContract (P : Lib) : Prop :=
  ∀ pub priv m : Bytes, KeyPair P pub priv → priv.drop 32 = pub →
    P.edVerify pub m (P.edSign priv m) = true

/-- The group library read in a group `G`: `pt` is the point an element stands
for, `sc` the integer a 32-byte scalar stands for and `gen` the fixed
generator.  On clamped scalars, `GeScalarMultBase` gives the multiple of the
generator and `ScalarMult` the multiple of a decoded point; the encoding
depends on the point only. -/
structure Edwards.GroupModel (E : Edwards) {G : Type} [AddCommGroup G]
    (pt : E.ExtendedGroupElement → G) (sc : ByteArr 32 → Nat) (gen : G) : Prop where
  base_mult : ∀ k, Clamped k → pt (E.GeScalarMultBase k) = sc k • gen
  scalar_mult : ∀ b e k, E.FromBytes b = some e → Clamped k →
    pt (E.ScalarMult e k) = sc k • pt e
  encode_eq : ∀ e e', pt e = pt e' → E.ToBytes e = E.ToBytes e'

/-- The group library read on the curve `-x² + y² = 1 + d·x²·y²` (the comment
above `IsOnCurve`), with `X`, `Y`, `Z` the coordinates of an element in a
commutative ring, `x = X/Z`, `y = Y/Z`: `IsOnCurve` tests the curve equation
(cleared of denominators), and `FromBytes` returns an element with `Z = 1`
whose `x` it has recovered from `y` by `(d·y² + 1)·x² = y² - 1`. -/
structure Edwards.CurveModel (E : Edwards) {F : Type} [CommRing F] (d : F)
    (X Y Z : E.ExtendedGroupElement → F) : Prop where
  on_curve_iff : ∀ e, E.IsOnCurve e = true ↔
    -(X e) ^ 2 * (Z e) ^ 2 + (Y e) ^ 2 * (Z e) ^ 2 = (Z e) ^ 4 + d * (X e) ^ 2 * (Y e) ^ 2
  decode_solves : ∀ b e, E.FromBytes b = some e →
    Z e = 1 ∧ (d * (Y e) ^ 2 + 1) * (X e) ^ 2 = (Y e) ^ 2 - 1

/-- What the group algebra needs from the group library, on points passing the
curve-membership test: the encoded sum decodes to a point on the curve, and
subtracting the second summand from the decoded sum gives the first summand,
up to encoding. -/
structure Edwards.GroupContract (E : Edwards) : Prop where
  decode_sum : ∀ e1 e2, E.IsOnCurve e1 = true → E.IsOnCurve e2 = true →
    ∃ s, E.FromBytes (E.ToBytes (E.ToExtended (E.GeAdd e1 (E.ToCached e2)))) = some s ∧
      E.IsOnCurve s = true
  sub_sum : ∀ e1 e2 s, E.IsOnCurve e1 = true → E.IsOnCurve e2 = true →
    E.FromBytes (E.ToBytes (E.ToExtended (E.GeAdd e1 (E.ToCached e2)))) = some s →
    E.ToBytes (E.ToExtended (E.GeSub s (E.ToCached e2))) = E.ToBytes e1

/-! ## A small instance of the imported packages

The group is `ℤ/251` under addition with generator `1`; a point is encoded in
byte 0 of a 32-byte string whose byte 1 must be zero, byte 0 being accepted
unreduced.  It serves to evaluate the code on concrete inputs. -/

/-- Small group library: `ℤ/251`, encoded in byte 0. -/
def toyEd : Edwards where
  ExtendedGroupElement := Nat
  CachedGroupElement := Nat
  CompletedGroupElement := Nat
  FromBytes b := if b.val.getD 1 0 = 0 then some (b.val.getD 0 0) else none
  IsOnCurve e := decide (e < 251)
  ToBytes e := ⟨(e % 251) :: List.replicate 31 0, by simp⟩
  ToCached e := e
  ToExtended c := c
  GeAdd e c := (e + c) % 251
  GeSub e c := (e + (251 - c % 251)) % 251
  ScalarMult e k := (e * k.val.getD 0 0) % 251
  GeScalarMultBase k := k.val.getD 0 0 % 251

/-- Small hash object: the digest is the written data, zero-padded or cut to
32 bytes. -/
def toyHash : Hash where
  State := Bytes
  fresh := []
  Reset _ := []
  Write s d := s ++ d
  Sum s b := b ++ (s ++ List.replicate 32 0).take 32

/-- Small instance of the imported packages. -/
def toyLib : Lib where
  ed := toyEd
  Sum512 d := ⟨(d ++ List.replicate 64 0).take 64, by simp⟩
  New256 := toyHash
  pbkdf2Key pw salt iter n :=
    if n < 0 then .error .sliceBounds
    else .ok (List.replicate n.toNat ((pw.sum + salt.sum + iter.toNat) % 256))
  edSign priv m := (priv.drop 32 ++ m ++ List.replicate 64 0).take 64
  edVerify pub m s := decide (s = (pub ++ m ++ List.replicate 64 0).take 64)

/-- Example private key: seed `8, 1, …, 1` followed by its public key. -/
def demoPriv : Bytes := 8 :: List.replicate 31 1 ++ 8 :: List.replicate 31 0

/-- Example public key, matching `demoPriv`. -/
def demoPub : Bytes := 8 :: List.replicate 31 0

/-- Example ephemeral private key: seed `16, 2, …, 2` followed by its public key. -/
def demoEphPriv : Bytes := 16 :: List.replicate 31 2 ++ 16 :: List.replicate 31 0

/-- Example ephemeral public key, matching `demoEphPriv`. -/
def demoEphPub : Bytes := 16 :: List.replicate 31 0

/-- Example message, the bytes of `"test"`. -/
def demoMsg : Bytes := [116, 101, 115, 116]

/-- Example of a 32-byte string the small group library does not decode. -/
def demoBadPoint : Bytes := 2 :: 1 :: List.replicate 30 0

/-- Addition on the curve `-x² + y² = 1 + 2·x²·y²` over `ℤ/13`, in affine
coordinates (the inverse is the eleventh power). -/
def smallAdd (p q : ZMod 13 × ZMod 13) : ZMod 13 × ZMod 13 :=
  ((p.1 * q.2 + p.2 * q.1) * (1 + 2 * p.1 * q.1 * p.2 * q.2) ^ 11,
   (p.2 * q.2 + p.1 * q.1) * (1 - 2 * p.1 * q.1 * p.2 * q.2) ^ 11)

/-- Repeated addition on the small curve, from the neutral point `(0, 1)`. -/
def smallMul (p : ZMod 13 × ZMod 13) : Nat → ZMod 13 × ZMod 13
  | 0 => (0, 1)
  | n + 1 => smallAdd (smallMul p n) p

/-- Small curve library: the curve `-x² + y² = 1 + 2·x²·y²` over `ℤ/13` with
generator `(2, 4)`.  A point is encoded by `y` in byte 0 and the parity of `x`
in the top bit of byte 31; decoding recovers `x` from the curve equation and
fails when there is none; a scalar is read from its byte 0. -/
def smallEd : Edwards where
  ExtendedGroupElement := ZMod 13 × ZMod 13
  CachedGroupElement := ZMod 13 × ZMod 13
  CompletedGroupElement := ZMod 13 × ZMod 13
  FromBytes b :=
    match (List.range 13).find? (fun x => decide
        ((2 * ((b.val.getD 0 0 : Nat) : ZMod 13) ^ 2 + 1) * ((x : Nat) : ZMod 13) ^ 2
          = ((b.val.getD 0 0 : Nat) : ZMod 13) ^ 2 - 1)) with
    | none => none
    | some x =>
      some (if x % 2 = b.val.getD 31 0 / 128 % 2 then ((x : Nat) : ZMod 13)
            else -((x : Nat) : ZMod 13), ((b.val.getD 0 0 : Nat) : ZMod 13))
  IsOnCurve e := decide (-e.1 ^ 2 + e.2 ^ 2 = 1 + 2 * e.1 ^ 2 * e.2 ^ 2)
  ToBytes e := ⟨e.2.val :: List.replicate 30 0 ++ [128 * (e.1.val % 2)], by simp⟩
  ToCached e := e
  ToExtended c := c
  GeAdd e c := smallAdd e c
  GeSub e c := smallAdd e (-c.1, c.2)
  ScalarMult e k := smallMul e (k.val.getD 0 0)
  GeScalarMultBase k := smallMul (2, 4) (k.val.getD 0 0)

/-- Example encoding of the small curve's generator `(2, 4)`. -/
def demoCurvePoint : Bytes := 4 :: List.replicate 31 0

/-- Example of a 32-byte string the small curve library does not decode
(no point of the curve has `y = 5`). -/
def demoCurveBadPoint : Bytes := 5 :: List.replicate 31 0

/-- Example 32-byte scalar. -/
def demoScalar : Bytes := 8 :: List.replicate 30 1 ++ [65]

/-- Example encoding of the small group's generator. -/
def demoBase : Bytes := 1 :: List.replicate 31 0

/-- Example of a 32-byte string that the small group library decodes to a point
on the curve without being the encoding that `ToBytes` gives that point. -/
def demoNonCanon : Bytes := 5 :: 0 :: 7 :: List.replicate 29 0

/-! ## Basic facts about the embedding -/

theorem bytesCompare_self (a : Bytes) : bytesCompare a a = 0 := by
  induction a with
  | nil => rfl
  | cons x xs ih => simp [bytesCompare, ih]

theorem bytesCompare_eq_zero : ∀ a b : Bytes, bytesCompare a b = 0 → a = b
  | [], [], _ => rfl
  | [], _ :: _, h => by simp [bytesCompare] at h
  | _ :: _, [], h => by simp [bytesCompare] at h
  | x :: xs, y :: ys, h => by
    unfold bytesCompare at h
    by_cases h1 : x < y
    · simp [h1] at h
    · by_cases h2 : y < x
      · simp [h1, h2] at h
      · simp only [h1, h2, if_false] at h
        have hxy : x = y := by omega
        rw [hxy, bytesCompare_eq_zero xs ys h]

theorem bytesCompare_eq_zero_iff (a b : Bytes) : bytesCompare a b = 0 ↔ a = b :=
  ⟨bytesCompare_eq_zero a b, fun h => h ▸ bytesCompare_self a⟩

theorem clamp_length (d : ByteArr 64) : (clamp d).length = 32 := by
  simp [clamp, d.property]

theorem fromSlice_val (x : Bytes) (h : x.length = 32) : (fromSlice x).val = x := by
  simp [fromSlice, h, List.take_of_length_le]

theorem fromSlice_arr (x : ByteArr 32) : fromSlice x.val = x :=
  Subtype.ext (fromSlice_val x.val x.property)

theorem sliceTo_ok (s : Bytes) (hi : Nat) (h : hi ≤ s.length) :
    sliceTo s hi = .ok (s.take hi) := by
  simp [sliceTo, h]

theorem sliceTo_panic (s : Bytes) (hi : Nat) (h : s.length < hi) :
    sliceTo s hi = .error .sliceBounds := by
  simp [sliceTo, Nat.not_le.mpr h]

theorem sliceRange_ok (s : Bytes) (lo hi : Nat) (h1 : lo ≤ hi) (h2 : hi ≤ s.length) :
    sliceRange s lo hi = .ok ((s.take hi).drop lo) := by
  simp [sliceRange, h1, h2]

/-- The loop, pointwise: it succeeds when both windows are in range, keeps the
length, and changes exactly the bytes of the destination window. -/
theorem xorLoop_spec (dOff sOff : Nat) (src : Bytes) :
    ∀ (n i : Nat) (dst : Bytes), dOff + i + n ≤ dst.length → sOff + i + n ≤ src.length →
      ∃ r, xorLoop dOff sOff src n i dst = .ok r ∧ r.length = dst.length ∧
        ∀ j, r.getD j 0 =
          if dOff + i ≤ j ∧ j < dOff + i + n then
            dst.getD j 0 ^^^ src.getD (sOff + (j - dOff)) 0
          else dst.getD j 0 := by
  intro n
  induction n with
  | zero =>
    intro i dst _ _
    refine ⟨dst, rfl, rfl, fun j => ?_⟩
    have : ¬ (dOff + i ≤ j ∧ j < dOff + i + 0) := by omega
    rw [if_neg this]
  | succ n ih =>
    intro i dst hd hs
    have hdi : dOff + i < dst.length := by omega
    have hsi : sOff + i < src.length := by omega
    obtain ⟨r, hr, hlen, hget⟩ :=
      ih (i + 1) (dst.set (dOff + i) (dst[dOff + i] ^^^ src[sOff + i]))
        (by simp only [List.length_set]; omega) (by omega)
    refine ⟨r, ?_, ?_, fun j => ?_⟩
    · simp only [xorLoop, List.getElem?_eq_getElem hdi, List.getElem?_eq_getElem hsi]
      exact hr
    · simpa using hlen
    · rw [hget j]
      by_cases hj : j = dOff + i
      · subst hj
        have h1 : ¬ (dOff + (i + 1) ≤ dOff + i ∧ dOff + i < dOff + (i + 1) + n) := by omega
        have h2 : dOff + i ≤ dOff + i ∧ dOff + i < dOff + i + (n + 1) := by omega
        simp only [h1, h2, if_false, if_true]
        simp [List.getD_eq_getElem?_getD, List.getElem?_set, hdi, hsi]
      · have hne : dOff + i ≠ j := fun h => hj h.symm
        have hset : (dst.set (dOff + i) (dst[dOff + i] ^^^ src[sOff + i])).getD j 0
            = dst.getD j 0 := by
          simp [List.getD_eq_getElem?_getD, List.getElem?_set, hne]
        rw [hset]
        by_cases hw : dOff + i ≤ j ∧ j < dOff + i + (n + 1)
        · have hw2 : dOff + (i + 1) ≤ j ∧ j < dOff + (i + 1) + n := by omega
          simp [hw, hw2]
        · have hw2 : ¬ (dOff + (i + 1) ≤ j ∧ j < dOff + (i + 1) + n) := by omega
          simp [hw, hw2]

theorem toyLib_contract : toyLib.Contract where
  hash_len d := by simp [GenHash, toyLib, toyHash]
  kdf_len pw salt n := by
    refine ⟨List.replicate n ((pw.sum + salt.sum + 4096) % 256), ?_, by simp⟩
    have : ¬ ((n : Int) < 0) := by omega
    simp [toyLib, this]

theorem toyEd_dhContract : toyEd.DHContract where
  decode_base k _ := by
    refine ⟨k.val.getD 0 0 % 251, ?_, ?_⟩
    · simp [toyEd]
    · simp [toyEd]
  mult_congr := fun (e e' : Nat) k _ h => by
    have h1 : e % 251 = e' % 251 := by
      have := congrArg (fun b : ByteArr 32 => b.val.getD 0 0) h
      simpa [toyEd] using this
    apply Subtype.ext
    simp only [toyEd, Nat.mod_mod]
    rw [Nat.mul_mod e, Nat.mul_mod e', h1]
  mult_comm a b _ _ := by
    apply Subtype.ext
    simp only [toyEd, Nat.mod_mod]
    rw [Nat.mul_mod, Nat.mod_mod, ← Nat.mul_mod, Nat.mul_comm,
      Nat.mul_mod (b.val.getD 0 0 % 251), Nat.mod_mod, ← Nat.mul_mod]

/-! ## Exclusive or of byte strings -/

theorem xorBytes_length (a b : Bytes) (h : a.length = b.length) :
    (xorBytes a b).length = a.length := by
  simp [xorBytes, h]

theorem xorBytes_comm (a b : Bytes) : xorBytes a b = xorBytes b a := by
  induction a generalizing b with
  | nil => cases b <;> rfl
  | cons x xs ih =>
    cases b with
    | nil => rfl
    | cons y ys =>
      simp only [xorBytes, List.zipWith_cons_cons] at ih ⊢
      rw [ih ys]
      congr 1
      exact Nat.xor_comm x y

theorem xorBytes_getD (a b : Bytes) (h : a.length = b.length) (j : Nat) :
    (xorBytes a b).getD j 0 = a.getD j 0 ^^^ b.getD j 0 := by
  induction a generalizing b j with
  | nil =>
    cases b with
    | nil => simp [xorBytes]
    | cons y ys => simp at h
  | cons x xs ih =>
    cases b with
    | nil => simp at h
    | cons y ys =>
      cases j with
      | zero => simp [xorBytes]
      | succ j =>
        have := ih ys (by simpa using h) j
        simpa [xorBytes] using this

theorem xorBytes_cancel (a b : Bytes) (h : a.length = b.length) :
    xorBytes a (xorBytes a b) = b := by
  induction a generalizing b with
  | nil =>
    cases b with
    | nil => rfl
    | cons y ys => simp at h
  | cons x xs ih =>
    cases b with
    | nil => simp at h
    | cons y ys =>
      have := ih ys (by simpa using h)
      simp only [xorBytes, List.zipWith_cons_cons] at this ⊢
      rw [this, ← Nat.xor_assoc, Nat.xor_self, Nat.zero_xor]

theorem ext_getD (a b : Bytes) (hl : a.length = b.length)
    (h : ∀ j, a.getD j 0 = b.getD j 0) : a = b := by
  apply List.ext_getElem hl
  intro n h1 h2
  have := h n
  rwa [List.getD_eq_getElem _ _ h1, List.getD_eq_getElem _ _ h2] at this

/-- The loop of `Encrypt` on `pre ++ ks` with a 64-byte `pre`. -/
theorem xorLoop_encrypt (pre ks m : Bytes) (hpre : pre.length = 64)
    (hks : ks.length = m.length) :
    xorLoop 64 0 m m.length 0 (pre ++ ks) = .ok (pre ++ xorBytes ks m) := by
  obtain ⟨r, hr, hlen, hget⟩ := xorLoop_spec 64 0 m m.length 0 (pre ++ ks)
    (by simp [hpre, hks]) (by simp)
  rw [hr]
  congr 1
  apply ext_getD
  · simp [hlen, xorBytes_length ks m hks]
  · intro j
    rw [hget j]
    by_cases hj : j < 64
    · have : ¬ (64 + 0 ≤ j ∧ j < 64 + 0 + m.length) := by omega
      rw [if_neg this, List.getD_append _ _ _ _ (by omega), List.getD_append _ _ _ _ (by omega)]
    · have hj2 : pre.length ≤ j := by omega
      rw [List.getD_append_right _ _ _ _ hj2, List.getD_append_right _ _ _ _ hj2,
        xorBytes_getD ks m hks, hpre]
      by_cases hw : 64 + 0 ≤ j ∧ j < 64 + 0 + m.length
      · rw [if_pos hw]; simp
      · rw [if_neg hw]
        have h1 : ks.length ≤ j - 64 := by omega
        have h2 : m.length ≤ j - 64 := by omega
        rw [List.getD_eq_default _ _ h1, List.getD_eq_default _ _ h2]; rfl

/-- The loop of `Decrypt` on a keystream as long as the ciphertext body. -/
theorem xorLoop_decrypt (c ks : Bytes) (hc : 64 ≤ c.length)
    (hks : ks.length = c.length - 64) :
    xorLoop 0 64 c (c.length - 64) 0 ks = .ok (xorBytes ks (c.drop 64)) := by
  obtain ⟨r, hr, hlen, hget⟩ := xorLoop_spec 0 64 c (c.length - 64) 0 ks
    (by omega) (by omega)
  have hd : ks.length = (c.drop 64).length := by simp [hks]
  rw [hr]
  congr 1
  apply ext_getD
  · simp [hlen, xorBytes_length ks _ hd]
  · intro j
    rw [hget j, xorBytes_getD ks _ hd]
    by_cases hw : 0 + 0 ≤ j ∧ j < 0 + 0 + (c.length - 64)
    · rw [if_pos hw]; simp [List.getD_eq_getElem?_getD]
    · rw [if_neg hw]
      have h1 : (c.drop 64).length ≤ j := by simp; omega
      have h2 : ks.length ≤ j := by omega
      rw [List.getD_eq_default _ _ h1, List.getD_eq_default _ _ h2]; rfl

/-! ## What `Encrypt` and `Decrypt` compute -/

theorem kdf_ok (P : Lib) (hP : P.Contract) (pw salt : Bytes) (n : Nat) :
    P.pbkdf2Key pw salt 4096 (n : Int) = .ok (P.kdf pw salt n) ∧
      (P.kdf pw salt n).length = n := by
  obtain ⟨ks, hks, hlen⟩ := hP.kdf_len pw salt n
  simp [Lib.kdf, hks, hlen]

/-- `Encrypt` on a 32-byte key with a well-sized ephemeral pair: the ephemeral
point, the tag, and the message under the keystream. -/
theorem Encrypt_eq (P : Lib) (hP : P.Contract) (pub m R r : Bytes)
    (hpub : pub.length = 32) (hR : R.length = 32) (hr : 32 ≤ r.length) :
    Encrypt P (some (R, r)) pub m =
      .ok (some (R ++ GenHash P.New256 (secret P pub r ++ m) ++
        xorBytes (P.kdf (secret P pub r) R m.length) m)) := by
  obtain ⟨hk, hkl⟩ := kdf_ok P hP (secret P pub r) R m.length
  have hloop := xorLoop_encrypt (R ++ GenHash P.New256 (secret P pub r ++ m))
    (P.kdf (secret P pub r) R m.length) m (by simp [hR, hP.hash_len]) hkl
  unfold Encrypt
  rw [if_neg (by simp [hpub])]
  simp only [sliceTo_ok r 32 hr, bind, Except.bind, List.nil_append, Int.toNat_ofNat]
  unfold secret at hk hloop ⊢
  rw [hk]
  simp only [hloop]

/-- `Decrypt` on a key of at least 32 bytes and a ciphertext of at least 64:
the message under the keystream, released only when the tag matches. -/
theorem Decrypt_eq (P : Lib) (hP : P.Contract) (priv c : Bytes)
    (hpriv : 32 ≤ priv.length) (hc : 64 ≤ c.length) :
    Decrypt P priv c =
      .ok (if GenHash P.New256 (secret P (c.take 32) priv ++
              xorBytes (P.kdf (secret P (c.take 32) priv) (c.take 32) (c.length - 64))
                (c.drop 64)) = (c.take 64).drop 32
           then some (xorBytes (P.kdf (secret P (c.take 32) priv) (c.take 32) (c.length - 64))
                (c.drop 64))
           else none) := by
  obtain ⟨hk, hkl⟩ := kdf_ok P hP (secret P (c.take 32) priv) (c.take 32) (c.length - 64)
  have hloop := xorLoop_decrypt c _ hc hkl
  have hlen : (c.length : Int) - 64 = ((c.length - 64 : Nat) : Int) := by omega
  unfold Decrypt
  simp only [sliceTo_ok priv 32 hpriv, sliceTo_ok c 32 (by omega),
    sliceRange_ok c 32 64 (by omega) hc, bind, Except.bind, hlen, Int.toNat_ofNat]
  unfold secret at hk hloop ⊢
  rw [hk]
  simp only [hloop, ne_eq, bytesCompare_eq_zero_iff]
  split_ifs <;> rfl

/-- The three parts of a ciphertext `R ‖ tag ‖ body`. -/
theorem layout_parts (R T B : Bytes) (hR : R.length = 32) (hT : T.length = 32) :
    (R ++ T ++ B).take 32 = R ∧ ((R ++ T ++ B).take 64).drop 32 = T ∧
      (R ++ T ++ B).drop 64 = B ∧ (R ++ T ++ B).length = 64 + B.length := by
  refine ⟨?_, ?_, ?_, ?_⟩
  · rw [List.append_assoc, List.take_append_of_le_length (by omega), List.take_of_length_le (by omega)]
  · have h64 : (R ++ T).length = 64 := by simp [hR, hT]
    rw [List.take_append_of_le_length (by omega), List.take_of_length_le (by omega),
      List.drop_append_of_le_length (by omega), List.drop_of_length_le (by omega)]
    rfl
  · have h64 : (R ++ T).length = 64 := by simp [hR, hT]
    rw [List.drop_append_of_le_length (by omega), List.drop_of_length_le (by omega)]
    rfl
  · simp only [List.length_append, hR, hT]

theorem scalarBaseMult_eq (E : Edwards) (d : ByteArr 64) (pub : Bytes)
    (h : ScalarBaseMult E (clamp d) = some pub) :
    pub = (E.ToBytes (E.GeScalarMultBase (fromSlice (clamp d)))).val := by
  unfold ScalarBaseMult at h
  rw [if_neg (by simp [clamp_length])] at h
  exact (Option.some.inj h).symm

theorem clamped_fromSlice (d : ByteArr 64) : Clamped (fromSlice (clamp d)) :=
  ⟨d, fromSlice_val _ (clamp_length d)⟩

/-- Diffie-Hellman agreement of the two calls of `ScalarMult`, from the group
library's contract: both are non-absent and equal. -/
theorem scalarMult_agree (E : Edwards) (hE : E.DHContract) (da db : ByteArr 64)
    (pub R : Bytes) (hpub : ScalarBaseMult E (clamp da) = some pub)
    (hR : ScalarBaseMult E (clamp db) = some R) :
    ScalarMult E pub (clamp db) = ScalarMult E R (clamp da) ∧
      ScalarMult E pub (clamp db) ≠ none := by
  have ha := clamped_fromSlice da
  have hb := clamped_fromSlice db
  have e1 := scalarBaseMult_eq E da pub hpub
  have e2 := scalarBaseMult_eq E db R hR
  obtain ⟨ea, hdeca, hea⟩ := hE.decode_base _ ha
  obtain ⟨eb, hdecb, heb⟩ := hE.decode_base _ hb
  have l1 : pub.length = 32 := by rw [e1]; exact (E.ToBytes _).property
  have l2 : R.length = 32 := by rw [e2]; exact (E.ToBytes _).property
  have f1 : fromSlice pub = E.ToBytes (E.GeScalarMultBase (fromSlice (clamp da))) := by
    rw [e1]; exact fromSlice_arr _
  have f2 : fromSlice R = E.ToBytes (E.GeScalarMultBase (fromSlice (clamp db))) := by
    rw [e2]; exact fromSlice_arr _
  have s1 : ScalarMult E pub (clamp db)
      = some (E.ToBytes (E.ScalarMult ea (fromSlice (clamp db)))).val := by
    unfold ScalarMult
    rw [if_neg (by simp [clamp_length]), if_neg (by simp [l1]), f1, hdeca]
  have s2 : ScalarMult E R (clamp da)
      = some (E.ToBytes (E.ScalarMult eb (fromSlice (clamp da)))).val := by
    unfold ScalarMult
    rw [if_neg (by simp [clamp_length]), if_neg (by simp [l2]), f2, hdecb]
  refine ⟨?_, by rw [s1]; simp⟩
  rw [s1, s2, hE.mult_congr _ _ _ hb hea, hE.mult_comm _ _ ha hb,
    ← hE.mult_congr _ _ _ ha heb]

/-- C1 (round trip).  Under the contracts of the imported packages, for every
key pair `(pub, priv)` of the key-generation collaborator, every message `m`
(the empty one included) and every ephemeral key pair `(R, r)` drawn by
`Encrypt`: `Encrypt` returns a ciphertext and `Decrypt` under `priv` returns
`m` on it. -/
theorem decrypt_encrypt_roundtrip (P : Lib) (hP : P.Contract) (hE : P.ed.DHContract)
    (pub priv R r m : Bytes) (hkey : KeyPair P pub priv) (heph : KeyPair P R r) :
    ∃ c, Encrypt P (some (R, r)) pub m = .ok (some c) ∧
      Decrypt P priv c = .ok (some m) := by
  obtain ⟨hpl, hpub⟩ := hkey
  obtain ⟨hrl, hR⟩ := heph
  have l1 : pub.length = 32 := by
    rw [scalarBaseMult_eq _ _ _ hpub]; exact (P.ed.ToBytes _).property
  have l2 : R.length = 32 := by
    rw [scalarBaseMult_eq _ _ _ hR]; exact (P.ed.ToBytes _).property
  have hz : secret P pub r = secret P R priv := by
    unfold secret
    rw [(scalarMult_agree P.ed hE _ _ pub R hpub hR).1]
  obtain ⟨h1, h2, h3, h4⟩ := layout_parts R (GenHash P.New256 (secret P pub r ++ m))
    (xorBytes (P.kdf (secret P pub r) R m.length) m) l2 (hP.hash_len _)
  have hkl := (kdf_ok P hP (secret P pub r) R m.length).2
  refine ⟨_, Encrypt_eq P hP pub m R r l1 l2 (by omega), ?_⟩
  rw [Decrypt_eq P hP priv _ (by omega) (by omega), h1, h2, h3, h4, ← hz,
    xorBytes_length _ _ hkl, hkl, Nat.add_sub_cancel_left, xorBytes_cancel _ _ hkl, if_pos rfl]

/-- Witness of `decrypt_encrypt_roundtrip`: the example key pairs and message. -/
theorem decrypt_encrypt_roundtrip_witness :
    KeyPair toyLib demoPub demoPriv ∧ KeyPair toyLib demoEphPub demoEphPriv ∧
      ∃ c, Encrypt toyLib (some (demoEphPub, demoEphPriv)) demoPub demoMsg = .ok (some c) ∧
        Decrypt toyLib demoPriv c = .ok (some demoMsg) :=
  ⟨⟨rfl, rfl⟩, ⟨rfl, rfl⟩,
    decrypt_encrypt_roundtrip toyLib toyLib_contract toyEd_dhContract
      demoPub demoPriv demoEphPub demoEphPriv demoMsg ⟨rfl, rfl⟩ ⟨rfl, rfl⟩⟩

/-- C2 (tag gate).  Under the contracts of the hash and key-derivation
packages, for a private key of at least 32 bytes and a ciphertext `c` of at
least 64 bytes, with `z = ScalarMult(c[0:32], clamp(priv[0:32]))` (a `nil`
result used as the empty string) and
`message = c[64:] XOR KDF(z, c[0:32], 4096, len(c)-64)`: `Decrypt` returns
`message` if `Hash(z ‖ message) = c[32:64]`, returns `nil` if not, and every
message it returns has a recomputed tag equal to the transmitted one. -/
theorem decrypt_tag_gate (P : Lib) (hP : P.Contract) (priv c : Bytes)
    (hpriv : 32 ≤ priv.length) (hc : 64 ≤ c.length) :
    (GenHash P.New256 (secret P (c.take 32) priv ++
        xorBytes (c.drop 64) (P.kdf (secret P (c.take 32) priv) (c.take 32) (c.length - 64)))
        = (c.take 64).drop 32 →
      Decrypt P priv c = .ok (some
        (xorBytes (c.drop 64) (P.kdf (secret P (c.take 32) priv) (c.take 32) (c.length - 64))))) ∧
    (GenHash P.New256 (secret P (c.take 32) priv ++
        xorBytes (c.drop 64) (P.kdf (secret P (c.take 32) priv) (c.take 32) (c.length - 64)))
        ≠ (c.take 64).drop 32 →
      Decrypt P priv c = .ok none) ∧
    (∀ m, Decrypt P priv c = .ok (some m) →
      GenHash P.New256 (secret P (c.take 32) priv ++ m) = (c.take 64).drop 32) := by
  rw [Decrypt_eq P hP priv c hpriv hc, xorBytes_comm (c.drop 64)]
  refine ⟨fun h => by rw [if_pos h], fun h => by rw [if_neg h], fun m hm => ?_⟩
  split_ifs at hm with h
  · have hm2 := Option.some.inj (Except.ok.inj hm)
    rw [← hm2]; exact h
  · exact absurd (Except.ok.inj hm) (by simp)

/-- Witness of `decrypt_tag_gate`: a 64-byte ciphertext with a wrong tag is
refused, under the example private key. -/
theorem decrypt_tag_gate_witness :
    32 ≤ demoPriv.length ∧ 64 ≤ (List.replicate 63 0 ++ [1]).length ∧
      Decrypt toyLib demoPriv (List.replicate 63 0 ++ [1]) = .ok none :=
  ⟨by decide, by decide,
    (decrypt_tag_gate toyLib toyLib_contract demoPriv (List.replicate 63 0 ++ [1])
      (by decide) (by decide)).2.1 (by decide)⟩

/-- C3 (the code at an undecodable ephemeral point).  Under the contracts of
the hash and key-derivation packages, for every 32-byte `R` that the group
library fails to decode, every message `m` and every private key of at least 32
bytes, `Decrypt` does not return `nil` on `R ‖ Hash(m) ‖ (m XOR KDF(empty, R,
4096, len m))`: it returns `m`. -/
theorem decrypt_undecodable_point_accepts (P : Lib) (hP : P.Contract) (priv R m : Bytes)
    (hpriv : 32 ≤ priv.length) (hR : R.length = 32)
    (hdec : P.ed.FromBytes (fromSlice R) = none) :
    Decrypt P priv (R ++ GenHash P.New256 m ++ xorBytes (P.kdf [] R m.length) m)
      = .ok (some m) := by
  obtain ⟨h1, h2, h3, h4⟩ := layout_parts R (GenHash P.New256 m)
    (xorBytes (P.kdf [] R m.length) m) hR (hP.hash_len _)
  have hkl := (kdf_ok P hP [] R m.length).2
  have hz : secret P R priv = [] := by
    unfold secret ScalarMult
    rw [if_neg (by simp [clamp_length]), if_neg (by simp [hR]), hdec]
    rfl
  rw [Decrypt_eq P hP priv _ hpriv (by omega), h1, h2, h3, h4, hz,
    xorBytes_length _ _ hkl, hkl, Nat.add_sub_cancel_left, xorBytes_cancel _ _ hkl,
    List.nil_append, if_pos rfl]

/-- Witness of `decrypt_undecodable_point_accepts`: the example message behind
an undecodable point, decrypted under the example private key. -/
theorem decrypt_undecodable_point_accepts_witness :
    toyLib.ed.FromBytes (fromSlice demoBadPoint) = none ∧
      Decrypt toyLib demoPriv
        (demoBadPoint ++ GenHash toyLib.New256 demoMsg
          ++ xorBytes (toyLib.kdf [] demoBadPoint demoMsg.length) demoMsg)
        = .ok (some demoMsg) :=
  ⟨rfl, decrypt_undecodable_point_accepts toyLib toyLib_contract demoPriv demoBadPoint demoMsg
    (by decide) rfl rfl⟩

/-- C4 (ciphertext layout).  Under the contracts of the hash and
key-derivation packages, for every 32-byte `pub`, every message `m` and every
ephemeral pair `(R, r)` (32 and 64 bytes) drawn by `Encrypt`, the ciphertext
`c` satisfies `c[0:32] = R`, `c[32:64] = Hash(z ‖ m)` with
`z = ScalarMult(pub, clamp(r[0:32]))`, and `c[64+i] = m[i] XOR ks[i]` for every
`i < len m`, with `ks = KDF(z, R, 4096, len m)`. -/
theorem encrypt_layout (P : Lib) (hP : P.Contract) (pub m R r : Bytes)
    (hpub : pub.length = 32) (hR : R.length = 32) (hr : r.length = 64) :
    ∃ ct, Encrypt P (some (R, r)) pub m = .ok (some ct) ∧
      ct.take 32 = R ∧
      (ct.take 64).drop 32 = GenHash P.New256 (secret P pub r ++ m) ∧
      ∀ i, i < m.length →
        ct[64 + i]? = some (m.getD i 0 ^^^ (P.kdf (secret P pub r) R m.length).getD i 0) := by
  obtain ⟨h1, h2, h3, h4⟩ := layout_parts R (GenHash P.New256 (secret P pub r ++ m))
    (xorBytes (P.kdf (secret P pub r) R m.length) m) hR (hP.hash_len _)
  have hkl := (kdf_ok P hP (secret P pub r) R m.length).2
  refine ⟨_, Encrypt_eq P hP pub m R r hpub hR (by omega), h1, h2, fun i hi => ?_⟩
  have hd := congrArg (fun l : Bytes => l[i]?) h3
  simp only [List.getElem?_drop] at hd
  rw [hd]
  have hx := xorBytes_getD (P.kdf (secret P pub r) R m.length) m hkl i
  have hlt : i < (xorBytes (P.kdf (secret P pub r) R m.length) m).length := by
    rw [xorBytes_length _ _ hkl, hkl]; exact hi
  rw [List.getD_eq_getElem _ _ hlt] at hx
  rw [List.getElem?_eq_getElem hlt, hx, Nat.xor_comm]

/-- Witness of `encrypt_layout`: the example key, message and ephemeral pair. -/
theorem encrypt_layout_witness :
    ∃ ct, Encrypt toyLib (some (demoEphPub, demoEphPriv)) demoPub demoMsg = .ok (some ct) ∧
      ct.take 32 = demoEphPub ∧
      (ct.take 64).drop 32 = GenHash toyLib.New256 (secret toyLib demoPub demoEphPriv ++ demoMsg) ∧
      ∀ i, i < demoMsg.length →
        ct[64 + i]? = some (demoMsg.getD i 0 ^^^
          (toyLib.kdf (secret toyLib demoPub demoEphPriv) demoEphPub demoMsg.length).getD i 0) :=
  encrypt_layout toyLib toyLib_contract demoPub demoMsg demoEphPub demoEphPriv rfl rfl rfl

/-- C5 (ciphertext length).  Under the contracts of the hash and
key-derivation packages, for every 32-byte `pub` and every message `m`,
whenever the ephemeral key generation succeeds (with a 32-byte public and a
64-byte private key), `Encrypt` returns a ciphertext of exactly `64 + len m`
bytes. -/
theorem encrypt_length (P : Lib) (hP : P.Contract) (pub m R r : Bytes)
    (hpub : pub.length = 32) (hR : R.length = 32) (hr : r.length = 64) :
    ∃ c, Encrypt P (some (R, r)) pub m = .ok (some c) ∧ c.length = 64 + m.length := by
  obtain ⟨_, _, _, h4⟩ := layout_parts R (GenHash P.New256 (secret P pub r ++ m))
    (xorBytes (P.kdf (secret P pub r) R m.length) m) hR (hP.hash_len _)
  have hkl := (kdf_ok P hP (secret P pub r) R m.length).2
  refine ⟨_, Encrypt_eq P hP pub m R r hpub hR (by omega), ?_⟩
  rw [h4, xorBytes_length _ _ hkl, hkl]

/-- Witness of `encrypt_length`: the example key, message and ephemeral pair. -/
theorem encrypt_length_witness :
    ∃ c, Encrypt toyLib (some (demoEphPub, demoEphPriv)) demoPub demoMsg = .ok (some c) ∧
      c.length = 64 + demoMsg.length :=
  encrypt_length toyLib toyLib_contract demoPub demoMsg demoEphPub demoEphPriv rfl rfl rfl

/-- C6 (the code at an undecodable public key).  Under the contracts of the
hash and key-derivation packages, for every 32-byte `pub` that the group
library fails to decode and every message `m`, `Encrypt` with a successful
ephemeral draw `(R, r)` does not return `nil`: it returns the ciphertext
`R ‖ Hash(m) ‖ (m XOR KDF(empty, R, 4096, len m))`, made with the empty secret. -/
theorem encrypt_undecodable_pub_returns (P : Lib) (hP : P.Contract) (pub m R r : Bytes)
    (hpub : pub.length = 32) (hdec : P.ed.FromBytes (fromSlice pub) = none)
    (hR : R.length = 32) (hr : r.length = 64) :
    Encrypt P (some (R, r)) pub m
      = .ok (some (R ++ GenHash P.New256 m ++ xorBytes (P.kdf [] R m.length) m)) := by
  have hz : secret P pub r = [] := by
    unfold secret ScalarMult
    rw [if_neg (by simp [clamp_length]), if_neg (by simp [hpub]), hdec]
    rfl
  rw [Encrypt_eq P hP pub m R r hpub hR (by omega), hz, List.nil_append]

/-- Witness of `encrypt_undecodable_pub_returns`: the example message
encrypted to an undecodable public key. -/
theorem encrypt_undecodable_pub_returns_witness :
    toyLib.ed.FromBytes (fromSlice demoBadPoint) = none ∧
      Encrypt toyLib (some (demoEphPub, demoEphPriv)) demoBadPoint demoMsg
        = .ok (some (demoEphPub ++ GenHash toyLib.New256 demoMsg
            ++ xorBytes (toyLib.kdf [] demoEphPub demoMsg.length) demoMsg)) :=
  ⟨rfl, encrypt_undecodable_pub_returns toyLib toyLib_contract demoBadPoint demoMsg
    demoEphPub demoEphPriv rfl rfl rfl rfl⟩

/-- C7 (the code without a length guard).  For every instance of the imported
packages, `Decrypt` given a private key shorter than 32 bytes, or a ciphertext
shorter than 64 bytes, panics: it returns nothing, `nil` included. -/
theorem decrypt_short_input_panics (P : Lib) (priv c : Bytes)
    (h : priv.length < 32 ∨ c.length < 64) :
    ∃ p, Decrypt P priv c = .error p := by
  unfold Decrypt
  by_cases hp : priv.length < 32
  · exact ⟨.sliceBounds, by rw [sliceTo_panic priv 32 hp]; rfl⟩
  · have hc : c.length < 64 := by omega
    rw [sliceTo_ok priv 32 (by omega)]
    by_cases hc32 : c.length < 32
    · exact ⟨.sliceBounds, by rw [sliceTo_panic c 32 hc32]; rfl⟩
    · rw [sliceTo_ok c 32 (by omega)]
      have hneg : ((c.length : Int) - 64).toNat = 0 := by omega
      have hsl : sliceRange c 32 64 = .error .sliceBounds := by
        simp [sliceRange, Nat.not_le.mpr hc]
      simp only [bind, Except.bind, hneg, xorLoop, hsl]
      cases P.pbkdf2Key _ _ _ _ with
      | error e => exact ⟨e, rfl⟩
      | ok ks => exact ⟨.sliceBounds, rfl⟩

/-- Witness of `decrypt_short_input_panics`: the empty private key with a
64-byte ciphertext. -/
theorem decrypt_short_input_panics_witness :
    ∃ p, Decrypt toyLib [] (List.replicate 64 0) = .error p :=
  decrypt_short_input_panics toyLib [] (List.replicate 64 0) (Or.inl (by decide))

/-- What `IsOnCurve` tests: the length, the decoding, and the group library's
curve-membership test of the decoded point. -/
theorem IsOnCurve_iff (E : Edwards) (x : Bytes) :
    IsOnCurve E x = true ↔
      x.length = 32 ∧ ∃ e, E.FromBytes (fromSlice x) = some e ∧ E.IsOnCurve e = true := by
  unfold IsOnCurve
  by_cases hx : x.length = 32
  · rw [if_neg (by simp [hx])]
    cases hd : E.FromBytes (fromSlice x) with
    | none => simp
    | some e => simp [hx]
  · rw [if_pos hx]
    simp [hx]

/-- C8 (length guards).  For every instance of the imported packages, each
length-guarded operation returns its failure result on a wrongly sized input:
`Sign` (private key not 64 bytes), `Verify` and `Encrypt` (public key not 32
bytes, whatever the ephemeral draw), `Add` and `Sub` (a point not 32 bytes),
`ScalarMult` (point or scalar not 32 bytes), `ScalarBaseMult` (scalar not 32
bytes), `IsOnCurve` (point not 32 bytes). -/
theorem length_guards (P : Lib) :
    (∀ priv m, priv.length ≠ 64 → Sign P priv m = none) ∧
    (∀ pub m s, pub.length ≠ 32 → Verify P pub m s = false) ∧
    (∀ gen pub m, pub.length ≠ 32 → Encrypt P gen pub m = .ok none) ∧
    (∀ x1 x2, x1.length ≠ 32 ∨ x2.length ≠ 32 → Add P.ed x1 x2 = none) ∧
    (∀ x1 x2, x1.length ≠ 32 ∨ x2.length ≠ 32 → Sub P.ed x1 x2 = none) ∧
    (∀ x1 k, x1.length ≠ 32 ∨ k.length ≠ 32 → ScalarMult P.ed x1 k = none) ∧
    (∀ k, k.length ≠ 32 → ScalarBaseMult P.ed k = none) ∧
    (∀ x, x.length ≠ 32 → IsOnCurve P.ed x = false) := by
  refine ⟨?_, ?_, ?_, ?_, ?_, ?_, ?_, ?_⟩
  · intro priv m h; unfold Sign; rw [if_pos h]
  · intro pub m s h; unfold Verify; rw [if_pos h]
  · intro gen pub m h; unfold Encrypt; rw [if_pos h]
  · intro x1 x2 h; unfold Add; rw [if_pos h]
  · intro x1 x2 h; unfold Sub; rw [if_pos h]
  · intro x1 k h
    unfold ScalarMult
    by_cases hk : k.length ≠ 32
    · rw [if_pos hk]
    · rw [if_neg hk, if_pos (h.resolve_right hk)]
  · intro k h; unfold ScalarBaseMult; rw [if_pos h]
  · intro x h; unfold IsOnCurve; rw [if_pos h]

/-- Witness of `length_guards`: a 31-byte key, point or scalar at each
operation. -/
theorem length_guards_witness :
    Sign toyLib (List.replicate 63 0) demoMsg = none ∧
    Verify toyLib (List.replicate 31 0) demoMsg [] = false ∧
    Encrypt toyLib (some (demoEphPub, demoEphPriv)) (List.replicate 31 0) demoMsg = .ok none ∧
    Add toyLib.ed (List.replicate 31 0) demoPub = none ∧
    Sub toyLib.ed demoPub (List.replicate 31 0) = none ∧
    ScalarMult toyLib.ed demoPub (List.replicate 31 0) = none ∧
    ScalarBaseMult toyLib.ed (List.replicate 31 0) = none ∧
    IsOnCurve toyLib.ed (List.replicate 31 0) = false :=
  ⟨(length_guards toyLib).1 _ _ (by decide),
   (length_guards toyLib).2.1 _ _ _ (by decide),
   (length_guards toyLib).2.2.1 _ _ _ (by decide),
   (length_guards toyLib).2.2.2.1 _ _ (Or.inl (by decide)),
   (length_guards toyLib).2.2.2.2.1 _ _ (Or.inr (by decide)),
   (length_guards toyLib).2.2.2.2.2.1 _ _ (Or.inr (by decide)),
   (length_guards toyLib).2.2.2.2.2.2.1 _ (by decide),
   (length_guards toyLib).2.2.2.2.2.2.2 _ (by decide)⟩

/-- C9 (`Add` and `Sub`).  For all byte strings `p1`, `p2`: `Add(p1, p2)` is
non-absent exactly when `IsOnCurve(p1)` and `IsOnCurve(p2)` hold (each is 32
bytes, decodes, and passes the curve-membership test), likewise `Sub`; a
non-absent result has 32 bytes and is the encoding of the group library's sum
(for `Sub`, difference) of the two decoded points. -/
theorem add_sub_on_curve (E : Edwards) (p1 p2 : Bytes) :
    (Add E p1 p2 ≠ none ↔ IsOnCurve E p1 = true ∧ IsOnCurve E p2 = true) ∧
    (Sub E p1 p2 ≠ none ↔ IsOnCurve E p1 = true ∧ IsOnCurve E p2 = true) ∧
    (∀ x, IsOnCurve E x = true ↔
      x.length = 32 ∧ ∃ e, E.FromBytes (fromSlice x) = some e ∧ E.IsOnCurve e = true) ∧
    (∀ out, Add E p1 p2 = some out → out.length = 32 ∧
      ∃ e1 e2, E.FromBytes (fromSlice p1) = some e1 ∧ E.FromBytes (fromSlice p2) = some e2 ∧
        out = (E.ToBytes (E.ToExtended (E.GeAdd e1 (E.ToCached e2)))).val) ∧
    (∀ out, Sub E p1 p2 = some out → out.length = 32 ∧
      ∃ e1 e2, E.FromBytes (fromSlice p1) = some e1 ∧ E.FromBytes (fromSlice p2) = some e2 ∧
        out = (E.ToBytes (E.ToExtended (E.GeSub e1 (E.ToCached e2)))).val) := by
  refine ⟨?_, ?_, IsOnCurve_iff E, ?_, ?_⟩
  · unfold Add IsOnCurve
    by_cases h1 : p1.length = 32 <;> by_cases h2 : p2.length = 32 <;>
      cases hd1 : E.FromBytes (fromSlice p1) <;> cases hd2 : E.FromBytes (fromSlice p2) <;>
      simp [h1, h2]
  · unfold Sub IsOnCurve
    by_cases h1 : p1.length = 32 <;> by_cases h2 : p2.length = 32 <;>
      cases hd1 : E.FromBytes (fromSlice p1) <;> cases hd2 : E.FromBytes (fromSlice p2) <;>
      simp [h1, h2]
  · intro out h
    unfold Add at h
    by_cases hl : p1.length ≠ 32 ∨ p2.length ≠ 32
    · rw [if_pos hl] at h; cases h
    · rw [if_neg hl] at h
      cases hd1 : E.FromBytes (fromSlice p1) with
      | none => rw [hd1] at h; cases h
      | some e1 =>
        cases hd2 : E.FromBytes (fromSlice p2) with
        | none => rw [hd1, hd2] at h; simp at h
        | some e2 =>
          rw [hd1, hd2] at h
          by_cases c1 : E.IsOnCurve e1 = true <;> by_cases c2 : E.IsOnCurve e2 = true <;>
            simp only [c1, c2, if_true, if_false] at h <;> try cases h
          exact ⟨(E.ToBytes _).property, e1, e2, rfl, rfl, rfl⟩
  · intro out h
    unfold Sub at h
    by_cases hl : p1.length ≠ 32 ∨ p2.length ≠ 32
    · rw [if_pos hl] at h; cases h
    · rw [if_neg hl] at h
      cases hd1 : E.FromBytes (fromSlice p1) with
      | none => rw [hd1] at h; cases h
      | some e1 =>
        cases hd2 : E.FromBytes (fromSlice p2) with
        | none => rw [hd1, hd2] at h; simp at h
        | some e2 =>
          rw [hd1, hd2] at h
          by_cases c1 : E.IsOnCurve e1 = true <;> by_cases c2 : E.IsOnCurve e2 = true <;>
            simp only [c1, c2, if_true, if_false] at h <;> try cases h
          exact ⟨(E.ToBytes _).property, e1, e2, rfl, rfl, rfl⟩

/-- Witness of `add_sub_on_curve`: the sum and the difference of the two
example public keys. -/
theorem add_sub_on_curve_witness :
    Add toyEd demoPub demoEphPub = some (24 :: List.replicate 31 0) ∧
      Sub toyEd demoEphPub demoPub = some (8 :: List.replicate 31 0) ∧
      (24 :: List.replicate 31 0).length = 32 ∧
      IsOnCurve toyEd demoPub = true ∧ IsOnCurve toyEd demoEphPub = true :=
  ⟨rfl, rfl, ((add_sub_on_curve toyEd demoPub demoEphPub).2.2.2.1 _ rfl).1,
    (add_sub_on_curve toyEd demoPub demoEphPub).1.mp (by decide)⟩

/-- What `ScalarMult` tests: it is non-absent exactly when the scalar has 32
bytes and the point has 32 bytes and decodes; the result then has 32 bytes and
encodes the group library's scalar multiple of the decoded point; and a
non-absent result implies `IsOnCurve(point)` once every point the group library
decodes passes its curve-membership test. -/
theorem scalarMult_tests (E : Edwards) (x k : Bytes) :
    (ScalarMult E x k ≠ none ↔
      k.length = 32 ∧ x.length = 32 ∧ ∃ e, E.FromBytes (fromSlice x) = some e) ∧
    (∀ out, ScalarMult E x k = some out → out.length = 32 ∧
      ∃ e, E.FromBytes (fromSlice x) = some e ∧
        out = (E.ToBytes (E.ScalarMult e (fromSlice k))).val) ∧
    ((∀ b e, E.FromBytes b = some e → E.IsOnCurve e = true) →
      ScalarMult E x k ≠ none → IsOnCurve E x = true) := by
  have key : ∀ out, ScalarMult E x k = some out → k.length = 32 ∧ x.length = 32 ∧
      ∃ e, E.FromBytes (fromSlice x) = some e ∧
        out = (E.ToBytes (E.ScalarMult e (fromSlice k))).val := by
    intro out h
    unfold ScalarMult at h
    by_cases hk : k.length ≠ 32
    · rw [if_pos hk] at h; cases h
    · rw [if_neg hk] at h
      by_cases hx : x.length ≠ 32
      · rw [if_pos hx] at h; cases h
      · rw [if_neg hx] at h
        cases hd : E.FromBytes (fromSlice x) with
        | none => rw [hd] at h; cases h
        | some e =>
          rw [hd] at h
          exact ⟨not_not.mp hk, not_not.mp hx, e, rfl, (Option.some.inj h).symm⟩
  refine ⟨⟨fun h => ?_, fun h => ?_⟩, fun out h => ?_, fun hlib h => ?_⟩
  · obtain ⟨out, hout⟩ := Option.ne_none_iff_exists'.mp h
    obtain ⟨hk, hx, e, he, _⟩ := key out hout
    exact ⟨hk, hx, e, he⟩
  · obtain ⟨hk, hx, e, he⟩ := h
    unfold ScalarMult
    rw [if_neg (by simp [hk]), if_neg (by simp [hx]), he]
    simp
  · obtain ⟨_, _, e, he, hout⟩ := key out h
    exact ⟨by rw [hout]; exact (E.ToBytes _).property, e, he, hout⟩
  · obtain ⟨out, hout⟩ := Option.ne_none_iff_exists'.mp h
    obtain ⟨_, hx, e, he, _⟩ := key out hout
    exact (IsOnCurve_iff E x).mpr ⟨hx, e, he, hlib _ _ he⟩

/-- Two keys with the same first 32 bytes slice alike: `key[:32]` gives the
same bytes, or panics for both. -/
theorem sliceTo_take_congr (k1 k2 : Bytes) (h : k1.take 32 = k2.take 32) :
    sliceTo k1 32 = sliceTo k2 32 := by
  have hl := congrArg List.length h
  simp only [List.length_take] at hl
  unfold sliceTo
  by_cases h1 : 32 ≤ k1.length
  · have h2 : 32 ≤ k2.length := by omega
    rw [if_pos h1, if_pos h2, h]
  · have h2 : ¬ 32 ≤ k2.length := by omega
    rw [if_neg h1, if_neg h2]

/-- C12 (only the seed is used).  For every ciphertext `c` and all private
keys `priv1`, `priv2` with the same first 32 bytes, `Decrypt(priv1, c)` equals
`Decrypt(priv2, c)`, for every instance of the imported packages. -/
theorem decrypt_uses_seed_only (P : Lib) (priv1 priv2 c : Bytes)
    (h : priv1.take 32 = priv2.take 32) :
    Decrypt P priv1 c = Decrypt P priv2 c := by
  unfold Decrypt
  rw [sliceTo_take_congr priv1 priv2 h]

/-- Witness of `decrypt_uses_seed_only`: the example private key and its
32-byte seed followed by 40 other bytes, on a 64-byte ciphertext. -/
theorem decrypt_uses_seed_only_witness :
    demoPriv.take 32 = (demoPriv.take 32 ++ List.replicate 40 9).take 32 ∧
      Decrypt toyLib demoPriv (List.replicate 64 0)
        = Decrypt toyLib (demoPriv.take 32 ++ List.replicate 40 9) (List.replicate 64 0) :=
  ⟨by decide, decrypt_uses_seed_only toyLib demoPriv
    (demoPriv.take 32 ++ List.replicate 40 9) (List.replicate 64 0) (by decide)⟩

/-- C14 (signature adapter).  `Sign(priv, m)` is non-absent exactly when
`len(priv) = 64`, and is then the signature primitive's output on `(priv, m)`;
`Verify(pub, m, s)` is the primitive's verification result when
`len(pub) = 32` and `false` otherwise. -/
theorem sign_verify_adapter (P : Lib) (priv pub m s : Bytes) :
    (Sign P priv m ≠ none ↔ priv.length = 64) ∧
    (priv.length = 64 → Sign P priv m = some (P.edSign priv m)) ∧
    (pub.length = 32 → Verify P pub m s = P.edVerify pub m s) ∧
    (pub.length ≠ 32 → Verify P pub m s = false) := by
  unfold Sign Verify
  refine ⟨?_, ?_, ?_, ?_⟩
  · by_cases h : priv.length = 64
    · simp [h]
    · simp [h]
  · intro h; rw [if_neg (by simp [h])]
  · intro h; rw [if_neg (by simp [h])]
  · intro h; rw [if_pos h]

/-- Witness of `sign_verify_adapter`: the example private and public keys. -/
theorem sign_verify_adapter_witness :
    Sign toyLib demoPriv demoMsg = some (toyLib.edSign demoPriv demoMsg) ∧
      Verify toyLib demoPub demoMsg [] = toyLib.edVerify demoPub demoMsg [] ∧
      Verify toyLib (List.replicate 31 0) demoMsg [] = false :=
  ⟨(sign_verify_adapter toyLib demoPriv demoPub demoMsg []).2.1 (by decide),
   (sign_verify_adapter toyLib demoPriv demoPub demoMsg []).2.2.1 (by decide),
   (sign_verify_adapter toyLib demoPriv (List.replicate 31 0) demoMsg []).2.2.2 (by decide)⟩

/-- C17 (shared-secret agreement).  Under the group library's Diffie-Hellman
contract, for every key pair `(pub, priv)` and every ephemeral key pair
`(R, r)` of the key-generation collaborator, the secret of `Encrypt`,
`ScalarMult(pub, clamp(r[0:32]))`, is non-absent and equals the secret of
`Decrypt`, `ScalarMult(R, clamp(priv[0:32]))`. -/
theorem shared_secret_agreement (P : Lib) (hE : P.ed.DHContract)
    (pub priv R r : Bytes) (hkey : KeyPair P pub priv) (heph : KeyPair P R r) :
    ScalarMult P.ed pub (clamp (P.Sum512 (r.take 32))) ≠ none ∧
      ScalarMult P.ed pub (clamp (P.Sum512 (r.take 32)))
        = ScalarMult P.ed R (clamp (P.Sum512 (priv.take 32))) := by
  have h := scalarMult_agree P.ed hE (P.Sum512 (priv.take 32)) (P.Sum512 (r.take 32))
    pub R hkey.2 heph.2
  exact ⟨h.2, h.1⟩

/-- Witness of `shared_secret_agreement`: the example key pairs. -/
theorem shared_secret_agreement_witness :
    KeyPair toyLib demoPub demoPriv ∧ KeyPair toyLib demoEphPub demoEphPriv ∧
      ScalarMult toyLib.ed demoPub (clamp (toyLib.Sum512 (demoEphPriv.take 32))) ≠ none ∧
      ScalarMult toyLib.ed demoPub (clamp (toyLib.Sum512 (demoEphPriv.take 32)))
        = ScalarMult toyLib.ed demoEphPub (clamp (toyLib.Sum512 (demoPriv.take 32))) :=
  ⟨⟨rfl, rfl⟩, ⟨rfl, rfl⟩,
    shared_secret_agreement toyLib toyEd_dhContract demoPub demoPriv demoEphPub demoEphPriv
      ⟨rfl, rfl⟩ ⟨rfl, rfl⟩⟩

/-- C18 (undecodable ephemeral point).  Under the contracts of the hash and
key-derivation packages, for every ciphertext `c` of at least 64 bytes whose
first 32 bytes the group library fails to decode: `Decrypt(priv1, c)` equals
`Decrypt(priv2, c)` for all private keys of at least 32 bytes, and `Decrypt`
returns `c[64:] XOR KDF(empty, c[0:32], 4096, len(c)-64)` when the hash of
that message alone equals `c[32:64]`, and `nil` when it does not. -/
theorem decrypt_undecodable_key_independent (P : Lib) (hP : P.Contract) (c : Bytes)
    (hc : 64 ≤ c.length) (hdec : P.ed.FromBytes (fromSlice (c.take 32)) = none) :
    (∀ priv1 priv2 : Bytes, 32 ≤ priv1.length → 32 ≤ priv2.length →
      Decrypt P priv1 c = Decrypt P priv2 c) ∧
    (∀ priv : Bytes, 32 ≤ priv.length →
      Decrypt P priv c =
        .ok (if GenHash P.New256 (xorBytes (c.drop 64) (P.kdf [] (c.take 32) (c.length - 64)))
                = (c.take 64).drop 32
             then some (xorBytes (c.drop 64) (P.kdf [] (c.take 32) (c.length - 64)))
             else none)) := by
  have hz : ∀ priv, secret P (c.take 32) priv = [] := by
    intro priv
    unfold secret ScalarMult
    rw [if_neg (by simp [clamp_length]), if_neg (by simp; omega), hdec]
    rfl
  have key : ∀ priv : Bytes, 32 ≤ priv.length →
      Decrypt P priv c =
        .ok (if GenHash P.New256 (xorBytes (c.drop 64) (P.kdf [] (c.take 32) (c.length - 64)))
                = (c.take 64).drop 32
             then some (xorBytes (c.drop 64) (P.kdf [] (c.take 32) (c.length - 64)))
             else none) := by
    intro priv hpriv
    rw [Decrypt_eq P hP priv c hpriv hc, hz priv, List.nil_append, xorBytes_comm]
  exact ⟨fun p1 p2 h1 h2 => by rw [key p1 h1, key p2 h2], key⟩

/-- Witness of `decrypt_undecodable_key_independent`: the forged ciphertext of
the example message behind an undecodable point, under two private keys. -/
theorem decrypt_undecodable_key_independent_witness :
    Decrypt toyLib demoPriv
        (demoBadPoint ++ GenHash toyLib.New256 demoMsg
          ++ xorBytes (toyLib.kdf [] demoBadPoint demoMsg.length) demoMsg)
      = Decrypt toyLib demoEphPriv
        (demoBadPoint ++ GenHash toyLib.New256 demoMsg
          ++ xorBytes (toyLib.kdf [] demoBadPoint demoMsg.length) demoMsg) :=
  (decrypt_undecodable_key_independent toyLib toyLib_contract
    (demoBadPoint ++ GenHash toyLib.New256 demoMsg
      ++ xorBytes (toyLib.kdf [] demoBadPoint demoMsg.length) demoMsg)
    (by decide) rfl).1 demoPriv demoEphPriv (by decide) (by decide)

/-! ## The clamping block -/

theorem and_F8_mod_eight (x : Nat) : (x &&& 0xF8) % 8 = 0 := by
  have h := Nat.and_pow_two_sub_one_eq_mod (x &&& 0xF8) 3
  have h2 : (x &&& 0xF8) &&& (2 ^ 3 - 1) = 0 := by
    rw [Nat.and_assoc, show ((0xF8 : Nat) &&& (2 ^ 3 - 1)) = 0 from by decide, Nat.and_zero]
  omega

theorem testBit_F8 : ∀ j, j < 8 → Nat.testBit 0xF8 j = decide (3 ≤ j) := by decide

theorem testBit_7F : ∀ j, j < 8 → Nat.testBit 0x7F j = decide (j < 7) := by decide

theorem testBit_40 : ∀ j, j < 8 → Nat.testBit 0x40 j = decide (j = 6) := by decide

theorem testBit_byte_high (n j : Nat) (hn : n < 256) (hj : ¬ j < 8) :
    Nat.testBit n j = false :=
  Nat.testBit_lt_two_pow (lt_of_lt_of_le (show n < 2 ^ 8 from hn)
    (Nat.pow_le_pow_right (by norm_num) (by omega)))

/-- Bits of `x & 0xF8`: bits 3 to 7 of `x`, nothing else. -/
theorem testBit_and_F8 (x j : Nat) :
    (x &&& 0xF8).testBit j = (decide (3 ≤ j ∧ j < 8) && x.testBit j) := by
  rw [Nat.testBit_and]
  by_cases hj : j < 8
  · rw [testBit_F8 j hj]
    by_cases h3 : 3 ≤ j <;> simp [h3, hj]
  · rw [testBit_byte_high 0xF8 j (by norm_num) hj]
    simp [hj]

/-- Bits of `(x & 0x7F) | 0x40`: bit 6 set, bits 0 to 5 of `x`, nothing else. -/
theorem testBit_and_7F_or_40 (x j : Nat) :
    ((x &&& 0x7F) ||| 0x40).testBit j
      = (decide (j = 6) || (decide (j < 6) && x.testBit j)) := by
  rw [Nat.testBit_or, Nat.testBit_and]
  by_cases hj : j < 8
  · rw [testBit_7F j hj, testBit_40 j hj]
    by_cases h6 : j = 6
    · simp [h6]
    · by_cases h5 : j < 6
      · have : j < 7 := by omega
        simp [h6, h5, this]
      · have : ¬ j < 7 := by omega
        simp [h6, h5, this]
  · rw [testBit_byte_high 0x7F j (by norm_num) hj, testBit_byte_high 0x40 j (by norm_num) hj]
    have h3 : j ≠ 6 := by omega
    have h4 : ¬ j < 6 := by omega
    simp [h3, h4]

theorem and_7F_or_40_bounds (x : Nat) :
    64 ≤ (x &&& 0x7F) ||| 0x40 ∧ (x &&& 0x7F) ||| 0x40 ≤ 127 := by
  constructor
  · have h : ((x &&& 0x7F) ||| 0x40).testBit 6 = true := by
      rw [testBit_and_7F_or_40]; simp
    exact Nat.testBit_implies_ge h
  · have h1 : x &&& 0x7F < 2 ^ 7 := lt_of_le_of_lt Nat.and_le_right (by norm_num)
    have := Nat.or_lt_two_pow h1 (show 0x40 < 2 ^ 7 by norm_num)
    omega

/-- The bytes of the clamped scalar in terms of the digest. -/
theorem clamp_bytes (d : ByteArr 64) :
    (clamp d).getD 0 0 = d.val.getD 0 0 &&& 0xF8 ∧
    (clamp d).getD 31 0 = (d.val.getD 31 0 &&& 0x7F) ||| 0x40 ∧
    ∀ i, 0 < i → i < 31 → (clamp d).getD i 0 = d.val.getD i 0 := by
  have hl := d.property
  refine ⟨?_, ?_, fun i h0 h31 => ?_⟩
  · simp [clamp, List.getD_eq_getElem?_getD, List.getElem?_take, List.getElem?_set, hl]
  · simp [clamp, List.getD_eq_getElem?_getD, List.getElem?_take, List.getElem?_set, hl]
  · have h1 : ¬ 31 = i := by omega
    have h2 : ¬ 0 = i := by omega
    have h3 : i < 32 := by omega
    have h4 : i < d.val.length := by omega
    simp [clamp, List.getD_eq_getElem?_getD, List.getElem?_take, List.getElem?_set, h1, h2, h3,
      List.getElem?_eq_getElem h4]

/-- C13 (clamped scalar).  For every seed, with `h` the 64-byte SHA-512 digest
of the seed, the scalar `clamp h` that `Encrypt` and `Decrypt` derive has 32
bytes; byte 0 is a multiple of 8 and byte 31 lies in `64 … 127`; bit `j` of
byte 0 is bit `j` of `h[0]` for `3 ≤ j < 8` and clear otherwise; bit 6 of byte
31 is set, bits 0 to 5 are those of `h[31]`, every other bit is clear; bytes 1
to 30 are those of `h`.  `Encrypt` uses the ephemeral private key, and
`Decrypt` the private key, only through this scalar of its first 32 bytes. -/
theorem clamp_scalar (P : Lib) (seed : Bytes) :
    (clamp (P.Sum512 seed)).length = 32 ∧
    (clamp (P.Sum512 seed)).getD 0 0 % 8 = 0 ∧
    64 ≤ (clamp (P.Sum512 seed)).getD 31 0 ∧
    (clamp (P.Sum512 seed)).getD 31 0 ≤ 127 ∧
    (∀ j, ((clamp (P.Sum512 seed)).getD 0 0).testBit j
      = (decide (3 ≤ j ∧ j < 8) && ((P.Sum512 seed).val.getD 0 0).testBit j)) ∧
    (∀ j, ((clamp (P.Sum512 seed)).getD 31 0).testBit j
      = (decide (j = 6) || (decide (j < 6) && ((P.Sum512 seed).val.getD 31 0).testBit j))) ∧
    (∀ i, 0 < i → i < 31 →
      (clamp (P.Sum512 seed)).getD i 0 = (P.Sum512 seed).val.getD i 0) ∧
    (∀ R r r2 pub m : Bytes, 32 ≤ r.length → 32 ≤ r2.length →
      clamp (P.Sum512 (r.take 32)) = clamp (P.Sum512 (r2.take 32)) →
      Encrypt P (some (R, r)) pub m = Encrypt P (some (R, r2)) pub m) ∧
    (∀ priv priv2 c : Bytes, 32 ≤ priv.length → 32 ≤ priv2.length →
      clamp (P.Sum512 (priv.take 32)) = clamp (P.Sum512 (priv2.take 32)) →
      Decrypt P priv c = Decrypt P priv2 c) := by
  obtain ⟨b0, b31, bmid⟩ := clamp_bytes (P.Sum512 seed)
  refine ⟨clamp_length _, ?_, ?_, ?_, ?_, ?_, bmid, ?_, ?_⟩
  · rw [b0]; exact and_F8_mod_eight _
  · rw [b31]; exact (and_7F_or_40_bounds _).1
  · rw [b31]; exact (and_7F_or_40_bounds _).2
  · intro j; rw [b0]; exact testBit_and_F8 _ j
  · intro j; rw [b31]; exact testBit_and_7F_or_40 _ j
  · intro R r r2 pub m h1 h2 h
    unfold Encrypt
    simp only [sliceTo_ok r 32 h1, sliceTo_ok r2 32 h2, bind, Except.bind, h]
  · intro priv priv2 c h1 h2 h
    unfold Decrypt
    simp only [sliceTo_ok priv 32 h1, sliceTo_ok priv2 32 h2, bind, Except.bind, h]

/-- Witness of `clamp_scalar`: the scalar of the example private key's seed. -/
theorem clamp_scalar_witness :
    clamp (toyLib.Sum512 (demoPriv.take 32)) = demoScalar ∧
      (clamp (toyLib.Sum512 (demoPriv.take 32))).length = 32 ∧
      (clamp (toyLib.Sum512 (demoPriv.take 32))).getD 0 0 % 8 = 0 ∧
      64 ≤ (clamp (toyLib.Sum512 (demoPriv.take 32))).getD 31 0 ∧
      (clamp (toyLib.Sum512 (demoPriv.take 32))).getD 31 0 ≤ 127 :=
  ⟨by decide, (clamp_scalar toyLib (demoPriv.take 32)).1,
    (clamp_scalar toyLib (demoPriv.take 32)).2.1,
    (clamp_scalar toyLib (demoPriv.take 32)).2.2.1,
    (clamp_scalar toyLib (demoPriv.take 32)).2.2.2.1⟩

/-! ## Signature, base point and group algebra -/

theorem toyLib_sigContract : toyLib.SigContract := by
  intro pub priv m _ h
  simp [toyLib, h]

theorem toyEd_groupContract : toyEd.GroupContract where
  decode_sum := fun (e1 e2 : Nat) _ _ => by
    refine ⟨(e1 + e2) % 251 % 251, ?_, ?_⟩
    · simp [toyEd]
    · simp only [toyEd, decide_eq_true_eq]
      omega
  sub_sum := fun (e1 e2 s : Nat) _ _ hs => by
    have hs2 : (e1 + e2) % 251 % 251 = s := by
      simpa [toyEd] using hs
    apply Subtype.ext
    simp only [toyEd]
    congr 1
    omega

/-- C15 (signature round trip).  Under the signature primitive's contract, for
every key pair `(pub, priv)` of the key-generation collaborator and every
message `m`: `Sign(priv, m)` is the primitive's signature, unchanged, and
`Verify(pub, m, Sign(priv, m))` is true. -/
theorem sign_verify_roundtrip (P : Lib) (hS : P.SigContract) (pub priv m : Bytes)
    (hkey : KeyPair P pub priv) (hpub : priv.drop 32 = pub) :
    ∃ s, Sign P priv m = some s ∧ s = P.edSign priv m ∧ Verify P pub m s = true := by
  have l1 : pub.length = 32 := by
    rw [scalarBaseMult_eq _ _ _ hkey.2]; exact (P.ed.ToBytes _).property
  refine ⟨P.edSign priv m, ?_, rfl, ?_⟩
  · unfold Sign; rw [if_neg (by simp [hkey.1])]
  · unfold Verify; rw [if_neg (by simp [l1])]; exact hS pub priv m hkey hpub

/-- Witness of `sign_verify_roundtrip`: the example key pair and message. -/
theorem sign_verify_roundtrip_witness :
    KeyPair toyLib demoPub demoPriv ∧ demoPriv.drop 32 = demoPub ∧
      ∃ s, Sign toyLib demoPriv demoMsg = some s ∧ s = toyLib.edSign demoPriv demoMsg ∧
        Verify toyLib demoPub demoMsg s = true :=
  ⟨⟨rfl, rfl⟩, rfl,
    sign_verify_roundtrip toyLib toyLib_sigContract demoPub demoPriv demoMsg ⟨rfl, rfl⟩ rfl⟩

/-- C11 as stated fails: with the small group library, `demoNonCanon` and
`demoPub` are valid curve points, yet `Sub(Add(P, Q), Q)` is the re-encoding of
`P`, which differs from `P` in byte 2. -/
theorem sub_add_counterexample :
    IsOnCurve toyEd demoNonCanon = true ∧ IsOnCurve toyEd demoPub = true ∧
      Sub toyEd ((Add toyEd demoNonCanon demoPub).getD []) demoPub
        = some (5 :: List.replicate 31 0) ∧
      Sub toyEd ((Add toyEd demoNonCanon demoPub).getD []) demoPub ≠ some demoNonCanon := by
  decide

/-- C11 (amended).  Under the group library's contract, for all `P` and `Q`
that are valid curve points, `Sub(Add(P, Q), Q)` is the encoding that the
group library gives the point decoded from `P`; it equals `P` byte for byte
when `P` is that encoding. -/
theorem sub_add_reencodes (E : Edwards) (hG : E.GroupContract) (p q : Bytes)
    (hp : IsOnCurve E p = true) (hq : IsOnCurve E q = true) :
    ∃ e, E.FromBytes (fromSlice p) = some e ∧
      Sub E ((Add E p q).getD []) q = some (E.ToBytes e).val ∧
      ((E.ToBytes e).val = p → Sub E ((Add E p q).getD []) q = some p) := by
  obtain ⟨lp, e1, hd1, hc1⟩ := (IsOnCurve_iff E p).mp hp
  obtain ⟨lq, e2, hd2, hc2⟩ := (IsOnCurve_iff E q).mp hq
  obtain ⟨s, hs, hcs⟩ := hG.decode_sum e1 e2 hc1 hc2
  have hsub := hG.sub_sum e1 e2 s hc1 hc2 hs
  have hadd : Add E p q = some (E.ToBytes (E.ToExtended (E.GeAdd e1 (E.ToCached e2)))).val := by
    unfold Add
    rw [if_neg (by simp [lp, lq]), hd1]
    simp only [hc1, if_true, hd2, hc2]
  have hres : Sub E ((Add E p q).getD []) q = some (E.ToBytes e1).val := by
    rw [hadd, Option.getD_some]
    unfold Sub
    rw [if_neg (by simp [lq, (E.ToBytes _).property]), fromSlice_arr, hs]
    simp only [hcs, if_true, hd2, hc2, hsub]
  exact ⟨e1, hd1, hres, fun h => by rw [hres, h]⟩

/-- Witness of `sub_add_reencodes`: the two example public keys. -/
theorem sub_add_reencodes_witness :
    IsOnCurve toyEd demoEphPub = true ∧ IsOnCurve toyEd demoPub = true ∧
      ∃ e, toyEd.FromBytes (fromSlice demoEphPub) = some e ∧
        Sub toyEd ((Add toyEd demoEphPub demoPub).getD []) demoPub = some (toyEd.ToBytes e).val ∧
        ((toyEd.ToBytes e).val = demoEphPub →
          Sub toyEd ((Add toyEd demoEphPub demoPub).getD []) demoPub = some demoEphPub) :=
  ⟨by decide, by decide,
    sub_add_reencodes toyEd toyEd_groupContract demoEphPub demoPub (by decide) (by decide)⟩

/-! ## Curve membership of decoded points, and the base point -/

theorem smallEd_curveModel :
    smallEd.CurveModel (2 : ZMod 13) (fun e : ZMod 13 × ZMod 13 => e.1)
      (fun e : ZMod 13 × ZMod 13 => e.2) (fun _ => 1) where
  on_curve_iff := fun (e : ZMod 13 × ZMod 13) => by
    simp [smallEd]
  decode_solves := fun b (e : ZMod 13 × ZMod 13) h => by
    refine ⟨rfl, ?_⟩
    simp only [smallEd] at h
    split at h
    · cases h
    · rename_i x hx
      have hpred := List.find?_some hx
      simp only [decide_eq_true_eq] at hpred
      have he := Option.some.inj h
      rw [← he]
      by_cases hs : x % 2 = b.val.getD 31 0 / 128 % 2
      · simp only [hs, if_true]
        exact hpred
      · simp only [hs, if_false, neg_sq]
        exact hpred

theorem toyEd_groupModel :
    toyEd.GroupModel (fun e : Nat => (e : ZMod 251)) (fun k => k.val.getD 0 0) 1 where
  base_mult k _ := by
    simp [toyEd]
  scalar_mult := fun b (e : Nat) k _ _ => by
    simp [toyEd, mul_comm]
  encode_eq := fun (e e' : Nat) h => by
    have h1 : e % 251 = e' % 251 := (ZMod.natCast_eq_natCast_iff' e e' 251).mp h
    apply Subtype.ext
    simp only [toyEd, h1]

/-- A point the group library decodes passes its curve-membership test, when
the library solves and tests the same curve equation. -/
theorem decoded_on_curve (E : Edwards) {F : Type} [CommRing F] (d : F)
    (X Y Z : E.ExtendedGroupElement → F) (hM : E.CurveModel d X Y Z)
    (b : ByteArr 32) (e : E.ExtendedGroupElement) (h : E.FromBytes b = some e) :
    E.IsOnCurve e = true := by
  obtain ⟨hz, hx⟩ := hM.decode_solves b e h
  rw [hM.on_curve_iff, hz]
  linear_combination (-1 : F) * hx

/-- C10 (`ScalarMult`).  When the group library's decoder solves the curve
equation that its membership test checks, `ScalarMult(point, scalar)` is
non-absent exactly when the scalar has 32 bytes and `IsOnCurve(point)` holds
(the point has 32 bytes, decodes and passes the curve-membership test); in
particular a non-absent result implies `IsOnCurve(point)`.  The result then has
32 bytes and encodes the group library's scalar multiple of the decoded point. -/
theorem scalarMult_on_curve (E : Edwards) {F : Type} [CommRing F] (d : F)
    (X Y Z : E.ExtendedGroupElement → F) (hM : E.CurveModel d X Y Z) (x k : Bytes) :
    (ScalarMult E x k ≠ none → IsOnCurve E x = true) ∧
    (ScalarMult E x k ≠ none ↔ k.length = 32 ∧ IsOnCurve E x = true) ∧
    (∀ out, ScalarMult E x k = some out → out.length = 32 ∧
      ∃ e, E.FromBytes (fromSlice x) = some e ∧ E.IsOnCurve e = true ∧
        out = (E.ToBytes (E.ScalarMult e (fromSlice k))).val) := by
  obtain ⟨hiff, hout, himp⟩ := scalarMult_tests E x k
  have hon : ScalarMult E x k ≠ none → IsOnCurve E x = true :=
    himp (fun b e h => decoded_on_curve E d X Y Z hM b e h)
  refine ⟨hon, ⟨fun h => ⟨(hiff.mp h).1, hon h⟩, fun h => ?_⟩, fun out h => ?_⟩
  · obtain ⟨hx, e, he, _⟩ := (IsOnCurve_iff E x).mp h.2
    exact hiff.mpr ⟨h.1, hx, e, he⟩
  · obtain ⟨hl, e, he, ho⟩ := hout out h
    exact ⟨hl, e, he, decoded_on_curve E d X Y Z hM _ e he, ho⟩

/-- Witness of `scalarMult_on_curve`: on the small curve, the generator's
encoding with the example scalar, and a string that does not decode. -/
theorem scalarMult_on_curve_witness :
    ScalarMult smallEd demoCurvePoint demoScalar ≠ none ∧
      IsOnCurve smallEd demoCurvePoint = true ∧
      ScalarMult smallEd demoCurveBadPoint demoScalar = none ∧
      IsOnCurve smallEd demoCurveBadPoint = false :=
  ⟨by decide,
    (scalarMult_on_curve smallEd (2 : ZMod 13) (fun e : ZMod 13 × ZMod 13 => e.1)
      (fun e : ZMod 13 × ZMod 13 => e.2) (fun _ => 1) smallEd_curveModel
      demoCurvePoint demoScalar).1 (by decide),
    by decide, by decide⟩

/-- C16 (base-point consistency).  With the group library read in a group with
fixed generator `gen`, for every 32-byte `basePoint` that is an encoding of the
generator (it decodes to a point standing for `gen`) and every clamped 32-byte
scalar `k`, `ScalarBaseMult(k)` equals `ScalarMult(basePoint, k)`. -/
theorem scalarBaseMult_eq_scalarMult_base (E : Edwards) {G : Type} [AddCommGroup G]
    (pt : E.ExtendedGroupElement → G) (sc : ByteArr 32 → Nat) (gen : G)
    (hM : E.GroupModel pt sc gen) (basePoint k : Bytes)
    (hlen : basePoint.length = 32)
    (hbp : ∃ e, E.FromBytes (fromSlice basePoint) = some e ∧ pt e = gen)
    (hk : ∃ d : ByteArr 64, k = clamp d) :
    ScalarBaseMult E k = ScalarMult E basePoint k := by
  obtain ⟨d, rfl⟩ := hk
  obtain ⟨g, hg, hgen⟩ := hbp
  have hc := clamped_fromSlice d
  have hpt : pt (E.GeScalarMultBase (fromSlice (clamp d)))
      = pt (E.ScalarMult g (fromSlice (clamp d))) := by
    rw [hM.base_mult _ hc, hM.scalar_mult _ g _ hg hc, hgen]
  unfold ScalarBaseMult ScalarMult
  rw [if_neg (by simp [clamp_length]), if_neg (by simp [clamp_length]),
    if_neg (by simp [hlen]), hg]
  simp only [hM.encode_eq _ _ hpt]

/-- Witness of `scalarBaseMult_eq_scalarMult_base`: the example scalar and the
encoding of the small group's generator. -/
theorem scalarBaseMult_eq_scalarMult_base_witness :
    (∃ d : ByteArr 64, demoScalar = clamp d) ∧
      toyEd.FromBytes (fromSlice demoBase) = some (1 : Nat) ∧
      ScalarBaseMult toyEd demoScalar = ScalarMult toyEd demoBase demoScalar :=
  ⟨⟨toyLib.Sum512 (demoPriv.take 32), by decide⟩, rfl,
    scalarBaseMult_eq_scalarMult_base toyEd (fun e : Nat => (e : ZMod 251))
      (fun k => k.val.getD 0 0) 1 toyEd_groupModel demoBase demoScalar rfl
      ⟨(1 : Nat), rfl, by simp⟩
      ⟨toyLib.Sum512 (demoPriv.take 32), by decide⟩⟩

end Curve25519
